import Mathlib

/-!
Verification development for the stock investment dashboard repository.

The repository consists of an Observable Framework page (`src/src/index.md`)
that renders a portfolio-state JSON document, plus documentation of an
external export script.  The page's computational content — `calculateRisk`,
the strategy aggregation loop, the Top-3 concentration, and the table cell
formatters — is embedded below.  The aggregation step (`aggregate`) described
in the specification is implemented by `export_to_dashboard.py`, which is not
part of the repository; it is modelled from the specification text where
needed.

Numeric modelling: JavaScript numbers are embedded as `Rat`; an invalid or
non-finite JS result (`NaN`, `±Infinity`, `undefined`) is modelled as `none`
of `Option Rat`.  Every execution covered by a theorem below produces `none`
only through `NaN`/`undefined`, so the conflation of the non-finite values is
harmless there.  The floating-point square root `Math.sqrt` is abstracted as
a function parameter `sq : Rat → Rat`; no theorem depends on its values.
-/

namespace StockDash

/-- JS division `a / b` on finite operands: a zero denominator yields a
non-finite result (`Infinity` or `NaN`), modelled as `none`. -/
def jsDiv (a b : Rat) : Option Rat :=
  if b = 0 then none else some (a / b)

/-- JS division lifted to possibly-invalid operands: an invalid operand
propagates (`NaN / x = NaN`, `x / NaN = NaN`). -/
def jsDivO : Option Rat → Option Rat → Option Rat
  | some a, some b => jsDiv a b
  | _, _ => none

/-- `d3.mean`: the mean of the valid values of the list, `undefined`
(modelled `none`) when there is no valid value. -/
def d3mean (xs : List (Option Rat)) : Option Rat :=
  let v := xs.filterMap id
  if v.length = 0 then none else some (v.sum / (v.length : Rat))

/-- `d3.deviation`: the sample standard deviation of the valid values,
`undefined` (modelled `none`) when there are fewer than two; the square root
applied to the sample variance is the abstracted `sq`. -/
def d3deviation (sq : Rat → Rat) (xs : List (Option Rat)) : Option Rat :=
  let v := xs.filterMap id
  if v.length < 2 then none
  else
    let m := v.sum / (v.length : Rat)
    some (sq ((v.map (fun x => (x - m) ^ 2)).sum / ((v.length : Rat) - 1)))

/-- A point of the dashboard's `history` array: a date and a value. -/
structure HistPoint where
  date : Int
  value : Rat
  deriving DecidableEq

/-- The record returned by `calculateRisk` (src/src/index.md lines 71-75). -/
structure RiskMetrics where
  volatility : Option Rat
  maxDrawdown : Option Rat
  sharpe : Option Rat
  deriving DecidableEq

/-- The `for` loop of `calculateRisk` (src/src/index.md lines 57-64): walks
the history from index 1, collecting the daily returns and tracking the
running peak `maxVal` and the maximal drawdown `maxDD`.  The comparison
`dd > maxDD` is false when `dd` is invalid, so `maxDD` stays a plain number. -/
def riskLoop : List HistPoint → HistPoint → Rat → Rat → List (Option Rat) × Rat × Rat
  | [], _, maxVal, maxDD => ([], maxVal, maxDD)
  | h :: t, prev, maxVal, maxDD =>
    let r := jsDiv (h.value - prev.value) prev.value
    let maxVal2 := if maxVal < h.value then h.value else maxVal
    let maxDD2 :=
      match jsDiv (maxVal2 - h.value) maxVal2 with
      | some d => if maxDD < d then d else maxDD
      | none => maxDD
    let rest := riskLoop t h maxVal2 maxDD2
    (r :: rest.1, rest.2)

/-- `calculateRisk` (src/src/index.md lines 52-76). -/
def calculateRisk (sq : Rat → Rat) (hist : List HistPoint) : RiskMetrics :=
  let loop :=
    match hist with
    | [] => ([], 0, 0)
    | h0 :: rest => riskLoop rest h0 0 0
  let returns := loop.1
  let maxDD := loop.2.2
  let meanReturn := d3mean returns
  let stdDev := d3deviation sq returns
  let annVol := stdDev.map (fun s => s * sq 252)
  { volatility := annVol.map (fun v => v * 100)
    maxDrawdown := some (maxDD * 100)
    sharpe := (jsDivO meanReturn stdDev).map (fun x => x * sq 252) }

/-- The variable `maxDD` of `calculateRisk`: the drawdown ratio before the
`* 100` scaling (src/src/index.md line 73). -/
def maxDDRaw (hist : List HistPoint) : Rat :=
  match hist with
  | [] => 0
  | h0 :: rest => (riskLoop rest h0 0 0).2.2

/-- The `returns` array built by the loop of `calculateRisk`. -/
def returnsOf (hist : List HistPoint) : List (Option Rat) :=
  match hist with
  | [] => []
  | h0 :: rest => (riskLoop rest h0 0 0).1

/-- The variable `annualizedVol` of `calculateRisk`: the volatility ratio
before the `* 100` scaling (src/src/index.md line 68). -/
def annualizedVolRaw (sq : Rat → Rat) (hist : List HistPoint) : Option Rat :=
  (d3deviation sq (returnsOf hist)).map (fun s => s * sq 252)

/-- A holding as consumed by the concentration computation: only the `value`
field is read by `topHoldings`/`concentration`; `name` identifies the row. -/
structure PHolding where
  name : String
  value : Rat
  deriving DecidableEq

/-- `topHoldings` (src/src/index.md line 79): the holdings sorted by
descending value, first three.  Modern JS `Array.prototype.sort` is stable,
matching `mergeSort`. -/
def topHoldings (holdings : List PHolding) : List PHolding :=
  (holdings.mergeSort (fun a b => decide (b.value ≤ a.value))).take 3

/-- `concentration` (src/src/index.md line 80): the summed value of the top
three holdings divided by the portfolio total, times 100. -/
def concentration (holdings : List PHolding) (total_value : Rat) : Option Rat :=
  (jsDiv ((topHoldings holdings).map (fun h => h.value)).sum total_value).map
    (fun x => x * 100)

/-- Decimal idealization of the formatter `d3.format("+.2f")`
(src/src/index.md line 48): explicit sign and exactly two decimals, rounding
half up to the nearest hundredth.  `c` is the number of hundredths of the
absolute value of `q`: for `q = n / d ≥ 0` in lowest terms the rounded count
is `⌊(100 n + d / 2) / d⌋ = (200 n + d) / (2 d)` in integer division. -/
def formatPercent (q : Rat) : String :=
  let s := if q.num < 0 then "-" else "+"
  let c : Nat := (200 * q.num.natAbs + q.den) / (2 * q.den)
  s ++ toString (c / 100) ++ "." ++ (if c % 100 < 10 then "0" else "") ++ toString (c % 100)

/-- The `pnl_percent` cell formatter of the holdings table
(src/src/index.md line 228): the formatted number followed by a percent
sign, with no further arithmetic. -/
def pnlPercentCell (x : Rat) : String :=
  formatPercent x ++ "%"

/-- A virtual account as consumed by the strategy aggregation loop.  The
two pnl fields may be absent in the JSON (`va.unrealized_pnl || 0`), hence
`Option`. -/
structure VirtualAccount where
  name : String
  sector : String
  total_value : Rat
  cash : Rat
  equity : Rat
  unrealized_pnl : Option Rat
  realized_pnl : Option Rat
  deriving DecidableEq

/-- A strategy bucket of `strategyMap` (src/src/index.md line 34). -/
structure Strategy where
  name : String
  sector : String
  total_value : Rat
  cash : Rat
  equity : Rat
  unrealized_pnl : Rat
  realized_pnl : Rat
  count : Nat
  deriving DecidableEq

/-- The key computation `va.name.replace(/_\d+$/, "")` (src/src/index.md
line 32): if the name ends in an underscore followed by one or more digits,
that suffix is dropped; otherwise the name is unchanged. -/
def stripStrategy (s : String) : String :=
  let r := s.data.reverse
  let digits := r.takeWhile Char.isDigit
  match r.drop digits.length with
  | '_' :: rest => if digits.isEmpty then s else String.mk rest.reverse
  | _ => s

/-- The body of the strategy loop adding one virtual account into its bucket
(src/src/index.md lines 37-42). -/
def addToStrategy (s : Strategy) (va : VirtualAccount) : Strategy :=
  { s with
    total_value := s.total_value + va.total_value
    cash := s.cash + va.cash
    equity := s.equity + va.equity
    unrealized_pnl := s.unrealized_pnl + va.unrealized_pnl.getD 0
    realized_pnl := s.realized_pnl + va.realized_pnl.getD 0
    count := s.count + 1 }

/-- The fresh zero bucket created when a strategy key is first seen
(src/src/index.md line 34). -/
def newStrategy (key : String) (va : VirtualAccount) : Strategy :=
  ⟨key, va.sector, 0, 0, 0, 0, 0, 0⟩

/-- One iteration of the strategy loop (src/src/index.md lines 31-43):
the insertion-ordered `strategyMap` is modelled as an association list in
insertion order, keyed by the bucket's `name`. -/
def insertVA : List Strategy → VirtualAccount → List Strategy
  | [], va => [addToStrategy (newStrategy (stripStrategy va.name) va) va]
  | s :: t, va =>
    if s.name = stripStrategy va.name then addToStrategy s va :: t
    else s :: insertVA t va

/-- The contents of `strategyMap.values()` after the loop over all virtual
accounts (src/src/index.md lines 30-43). -/
def strategyFold (vas : List VirtualAccount) : List Strategy :=
  vas.foldl insertVA []

/-- `strategies` (src/src/index.md line 44): the buckets sorted by
descending `total_value`. -/
def strategies (vas : List VirtualAccount) : List Strategy :=
  (strategyFold vas).mergeSort (fun a b => decide (b.total_value ≤ a.total_value))

/-- The claim-side drawdown sequence: walking the values from index 1 with
the running peak `m` (the maximum of the values seen so far, the first entry
of the history never entering it), the relative drawdown of each value. -/
def ddSeq (m : Rat) : List Rat → List Rat
  | [] => []
  | v :: t => (max m v - v) / max m v :: ddSeq (max m v) t

/-- The maximum of a list of rationals (0 for the empty list). -/
def listMax : List Rat → Rat
  | [] => 0
  | [v] => v
  | v :: t => max v (listMax t)

/-!
The Aggregator.  The specification documents an aggregation step
(`export_to_dashboard.py` in the export instructions) that turns per-account
snapshot logs into the portfolio-state document consumed by the page above.
That script is not part of this repository, so the operation is modelled
from the specification text (spec sections 3, 4.1 and 6).
-/

/-- Modelled from the spec: a point-in-time measurement of one account's
portfolio state (spec section 3).  The timestamp is modelled by its calendar
day index, which is the only part of it the aggregation reads; the order of
the `performance_log` list is chronological.  The further raw snapshot
fields (`balance`, `pnl`, `pnl_rate`, `holdings_count`) are not consumed by
any modelled operation and are omitted. -/
structure Snapshot where
  day : Nat
  total_value : Rat
  deriving DecidableEq

/-- Modelled from the spec: one position of an account's holdings mapping —
instrument code, quantity and average cost (spec sections 3 and 6). -/
structure Position where
  code : String
  quantity : Rat
  avg_price : Rat
  deriving DecidableEq

/-- Modelled from the spec: an account record read by the Aggregator
(spec section 3). -/
structure Account where
  account_id : String
  cash : Rat
  holdings : List Position
  performance_log : List Snapshot
  deriving DecidableEq

/-- A point of the output `history` array (spec section 6). -/
structure HistoryPoint where
  date : Nat
  value : Rat
  deriving DecidableEq

/-- A row of the output `holdings` array (spec section 6); the externally
looked-up display name/sector are not modelled, `name` is the instrument
code. -/
structure OutHolding where
  name : String
  quantity : Rat
  avg_price : Rat
  current_price : Rat
  value : Rat
  pnl : Rat
  pnl_percent : Rat
  account : String
  deriving DecidableEq

/-- A row of the output `accounts` array (spec section 6). -/
structure OutAccount where
  name : String
  total_value : Rat
  cash : Rat
  equity : Rat
  deriving DecidableEq

/-- The output `summary` object (spec section 6).  `unrealized_pnl` and
`realized_pnl` appear in the schema but the spec gives no formula for them;
they are omitted. -/
structure Summary where
  total_value : Rat
  daily_pnl : Rat
  daily_return : Rat
  total_pnl : Rat
  total_return : Rat
  cash : Rat
  cash_percent : Rat
  deriving DecidableEq

/-- The portfolio-state document (spec section 6). -/
structure PortfolioState where
  summary : Summary
  history : List HistoryPoint
  holdings : List OutHolding
  accounts : List OutAccount
  deriving DecidableEq

/-- Modelled from the spec: a rate is pnl divided by its baseline value,
expressed as a percentage (times 100), with the mandated special case
baseline = 0 → rate = 0 (spec sections 4.1 and 6). -/
def rate (p b : Rat) : Rat :=
  if b = 0 then 0 else p / b * 100

/-- Modelled from the spec: an account's value as of day `d` — the last
snapshot of the latest day `≤ d`, i.e. the day's representative (policy:
last snapshot of the day) or, when the account has no day-`d` snapshot, the
carried-forward last known value (spec section 4.1); `none` when the account
has no snapshot up to `d`. -/
def dayValue (a : Account) (d : Nat) : Option Rat :=
  ((a.performance_log.filter (fun s => s.day ≤ d)).getLast?).map (fun s => s.total_value)

/-- Insert a day into a strictly sorted list of days, keeping it strictly
sorted (helper for the per-day grouping of spec section 4.1). -/
def insertDay (d : Nat) : List Nat → List Nat
  | [] => [d]
  | x :: t => if d < x then d :: x :: t else if d = x then x :: t else x :: insertDay d t

/-- Modelled from the spec: the sorted set of distinct calendar days on
which any account has a snapshot (spec section 4.1). -/
def allDays (accounts : List Account) : List Nat :=
  (accounts.flatMap (fun a => a.performance_log.map (fun s => s.day))).foldr insertDay []

/-- Modelled from the spec: the whole-portfolio value of one day — the sum
over accounts of the day's representative or carried-forward value; an
account with no snapshot up to that day contributes 0 (spec section 4.1). -/
def dayTotal (accounts : List Account) (d : Nat) : Rat :=
  (accounts.map (fun a => (dayValue a d).getD 0)).sum

/-- Modelled from the spec: the untruncated daily history, one point per
distinct day, ascending (spec section 4.1). -/
def fullHistory (accounts : List Account) : List HistoryPoint :=
  (allDays accounts).map (fun d => ⟨d, dayTotal accounts d⟩)

/-- The latest recorded portfolio total value (0 when there is none). -/
def latestValue (accounts : List Account) : Rat :=
  (((fullHistory accounts).getLast?).map (fun p => p.value)).getD 0

/-- The first recorded portfolio total value — the inception baseline. -/
def firstValue (accounts : List Account) : Rat :=
  (((fullHistory accounts).head?).map (fun p => p.value)).getD 0

/-- The previous day's portfolio total value (0 when there is none). -/
def prevDayValue (accounts : List Account) : Rat :=
  (((fullHistory accounts).dropLast.getLast?).map (fun p => p.value)).getD 0

/-- Modelled from the spec: the output summary (spec sections 4.1 and 6):
`total_pnl` is latest minus inception baseline, `daily_pnl` latest minus
previous day (0 with fewer than 2 days), each rate the corresponding pnl
over its baseline via `rate`. -/
def mkSummary (accounts : List Account) : Summary :=
  let latest := latestValue accounts
  let total_pnl := latest - firstValue accounts
  let daily_pnl :=
    if (fullHistory accounts).length < 2 then 0 else latest - prevDayValue accounts
  let cash := (accounts.map (fun a => a.cash)).sum
  { total_value := latest
    daily_pnl := daily_pnl
    daily_return := rate daily_pnl (prevDayValue accounts)
    total_pnl := total_pnl
    total_return := rate total_pnl (firstValue accounts)
    cash := cash
    cash_percent := rate cash latest }

/-- The current price of an instrument in the optional price mapping. -/
def lookupPrice (prices : List (String × Rat)) (code : String) : Option Rat :=
  (prices.find? (fun p => p.1 = code)).map (fun p => p.2)

/-- Modelled from the spec: one output holding row — the current price falls
back to the average cost when the instrument has no entry in the price
mapping, value = quantity × current price, pnl = value − quantity × average
cost, pnl_percent the rate of pnl over cost (spec sections 3, 4.1 and 6). -/
def mkHolding (prices : List (String × Rat)) (owner : String) (p : Position) : OutHolding :=
  let cp := (lookupPrice prices p.code).getD p.avg_price
  let v := p.quantity * cp
  let cost := p.quantity * p.avg_price
  ⟨p.code, p.quantity, p.avg_price, cp, v, v - cost, rate (v - cost) cost, owner⟩

/-- Modelled from the spec: the union over accounts of the positions with
positive quantity, each annotated with its owning account, never merged
across accounts (spec section 4.1). -/
def outHoldings (prices : List (String × Rat)) (accounts : List Account) : List OutHolding :=
  accounts.flatMap (fun a =>
    (a.holdings.filter (fun p => 0 < p.quantity)).map (mkHolding prices a.account_id))

/-- Modelled from the spec: one output account row with its latest total
value, cash, and equity = total value − cash (spec section 4.1). -/
def outAccount (a : Account) : OutAccount :=
  let tv := ((a.performance_log.getLast?).map (fun s => s.total_value)).getD 0
  ⟨a.account_id, tv, a.cash, tv - a.cash⟩

/-- Modelled from the spec: the Aggregator operation
`aggregate(accounts, current_prices) -> PortfolioState` of spec section 4.1,
with the retention window `w` as the design parameter; the history keeps the
`w` most recent days by dropping the oldest entries.  A total Lean function:
no input makes it raise. -/
def aggregate (w : Nat) (accounts : List Account) (prices : List (String × Rat)) :
    PortfolioState :=
  let hist := fullHistory accounts
  { summary := mkSummary accounts
    history := hist.drop (hist.length - w)
    holdings := outHoldings prices accounts
    accounts := accounts.map outAccount }

/-- The value of the aggregated history at day `d`, when a point with that
date is present. -/
def histValueAt (accounts : List Account) (d : Nat) : Option Rat :=
  ((fullHistory accounts).find? (fun p => p.date = d)).map (fun p => p.value)

/-- An account's last known value: the total value of its most recent
snapshot (0 when it has none). -/
def lastValue (a : Account) : Rat :=
  ((a.performance_log.getLast?).map (fun s => s.total_value)).getD 0

/-! Helper lemmas. -/

theorem if_lt_eq_max (a b : Rat) : (if a < b then b else a) = max a b := by
  rcases le_or_lt b a with h | h
  · rw [if_neg (not_lt.mpr h), max_eq_left h]
  · rw [if_pos h, max_eq_right h.le]

theorem mem_insertDay {a d : Nat} : ∀ {l : List Nat}, a ∈ insertDay d l ↔ a = d ∨ a ∈ l := by
  intro l
  induction l with
  | nil => simp [insertDay]
  | cons x t ih =>
    by_cases h1 : d < x
    · simp [insertDay, h1]
    · by_cases h2 : d = x
      · subst h2
        simp [insertDay, h1]
      · simp only [insertDay, if_neg h1, if_neg h2, List.mem_cons, ih]
        tauto

theorem mem_foldr_insertDay {a : Nat} :
    ∀ (days : List Nat), a ∈ days → a ∈ days.foldr insertDay [] := by
  intro days
  induction days with
  | nil => intro h; exact absurd h (List.not_mem_nil a)
  | cons x t ih =>
    intro h
    rcases List.mem_cons.mp h with h | h
    · exact mem_insertDay.mpr (Or.inl h)
    · exact mem_insertDay.mpr (Or.inr (ih h))

theorem pairwise_insertDay (d : Nat) :
    ∀ (l : List Nat), l.Pairwise (· < ·) → (insertDay d l).Pairwise (· < ·) := by
  intro l
  induction l with
  | nil => intro _; simp [insertDay]
  | cons x t ih =>
    intro h
    rcases List.pairwise_cons.mp h with ⟨hx, ht⟩
    by_cases h1 : d < x
    · rw [insertDay, if_pos h1]
      refine List.pairwise_cons.mpr ⟨?_, h⟩
      intro y hy
      rcases List.mem_cons.mp hy with rfl | hy
      · exact h1
      · exact lt_trans h1 (hx y hy)
    · by_cases h2 : d = x
      · rw [insertDay, if_neg h1, if_pos h2]; exact h
      · rw [insertDay, if_neg h1, if_neg h2]
        refine List.pairwise_cons.mpr ⟨?_, ih ht⟩
        intro y hy
        rcases mem_insertDay.mp hy with rfl | hy
        · omega
        · exact hx y hy

theorem pairwise_foldr_insertDay :
    ∀ (days : List Nat), (days.foldr insertDay []).Pairwise (· < ·) := by
  intro days
  induction days with
  | nil => simp
  | cons x t ih => exact pairwise_insertDay x _ ih

theorem pairwise_allDays (accounts : List Account) :
    (allDays accounts).Pairwise (· < ·) :=
  pairwise_foldr_insertDay _

theorem foldr_insertDay_const {d : Nat} :
    ∀ (l : List Nat), l ≠ [] → (∀ x ∈ l, x = d) → l.foldr insertDay [] = [d] := by
  intro l
  induction l with
  | nil => intro h; exact absurd rfl h
  | cons x t ih =>
    intro _ hall
    rcases List.eq_nil_or_concat t with rfl | _
    · have hx : x = d := hall x (List.mem_cons_self x [])
      subst hx
      simp [insertDay]
    · have ht : t ≠ [] := by
        rintro rfl
        simp_all
      have := ih ht (fun y hy => hall y (List.mem_cons_of_mem x hy))
      have hx : x = d := hall x (List.mem_cons_self x t)
      subst hx
      simp [List.foldr_cons, this, insertDay]

theorem find?_map_histPoint (g : Nat → Rat) (d : Nat) :
    ∀ (l : List Nat), d ∈ l →
      (l.map (fun x => (⟨x, g x⟩ : HistoryPoint))).find? (fun p => p.date = d)
        = some ⟨d, g d⟩ := by
  intro l
  induction l with
  | nil => intro h; exact absurd h (List.not_mem_nil d)
  | cons x t ih =>
    intro h
    by_cases hx : x = d
    · subst hx
      simp [List.find?]
    · have hd : d ∈ t := by
        rcases List.mem_cons.mp h with h | h
        · exact absurd h.symm hx
        · exact h
      simp only [List.map_cons, List.find?]
      rw [show (decide ((⟨x, g x⟩ : HistoryPoint).date = d)) = false by simp [hx]]
      exact ih hd

theorem foldl_max_eq_listMax :
    ∀ (l : List Rat) (a : Rat), l ≠ [] → List.foldl max a l = max a (listMax l) := by
  intro l
  induction l with
  | nil => intro a h; exact absurd rfl h
  | cons v t ih =>
    intro a _
    rcases List.eq_nil_or_concat t with rfl | _
    · simp [listMax]
    · have ht : t ≠ [] := by
        rintro rfl
        simp_all
      have hlm : listMax (v :: t) = max v (listMax t) := by
        rcases t with _ | ⟨y, t2⟩
        · exact absurd rfl ht
        · rfl
      rw [List.foldl_cons, ih (max a v) ht, hlm, max_assoc]

theorem riskLoop_maxDD :
    ∀ (t : List HistPoint) (prev : HistPoint) (mv md : Rat),
      (∀ p ∈ t, 0 < p.value) → 0 ≤ mv →
      (riskLoop t prev mv md).2.2
        = List.foldl max md (ddSeq mv (t.map (fun p => p.value))) := by
  intro t
  induction t with
  | nil => intro prev mv md _ _; rfl
  | cons p t ih =>
    intro prev mv md hpos hmv
    have hp : 0 < p.value := hpos p (List.mem_cons_self p t)
    have hmax : (0 : Rat) < max mv p.value := lt_of_lt_of_le hp (le_max_right mv p.value)
    have hdiv : jsDiv (max mv p.value - p.value) (max mv p.value)
        = some ((max mv p.value - p.value) / max mv p.value) := by
      rw [jsDiv, if_neg (ne_of_gt hmax)]
    simp only [riskLoop, if_lt_eq_max, hdiv]
    rw [ih p (max mv p.value) _ (fun q hq => hpos q (List.mem_cons_of_mem p hq)) (le_of_lt hmax)]
    simp only [List.map_cons, ddSeq, List.foldl_cons, if_lt_eq_max]

theorem insertVA_map_sum (f : Strategy → Rat) (g : VirtualAccount → Rat)
    (hadd : ∀ s va, f (addToStrategy s va) = f s + g va)
    (hnew : ∀ va : VirtualAccount, f (newStrategy (stripStrategy va.name) va) = 0) :
    ∀ (st : List Strategy) (va : VirtualAccount),
      ((insertVA st va).map f).sum = (st.map f).sum + g va := by
  intro st
  induction st with
  | nil =>
    intro va
    simp [insertVA, hadd, hnew va]
  | cons s t ih =>
    intro va
    by_cases h : s.name = stripStrategy va.name
    · simp only [insertVA, if_pos h, List.map_cons, List.sum_cons, hadd]
      ring
    · simp only [insertVA, if_neg h, List.map_cons, List.sum_cons, ih va]
      ring

theorem strategyFold_map_sum (f : Strategy → Rat) (g : VirtualAccount → Rat)
    (hadd : ∀ s va, f (addToStrategy s va) = f s + g va)
    (hnew : ∀ va : VirtualAccount, f (newStrategy (stripStrategy va.name) va) = 0) :
    ∀ (vas : List VirtualAccount) (st : List Strategy),
      ((vas.foldl insertVA st).map f).sum = (st.map f).sum + (vas.map g).sum := by
  intro vas
  induction vas with
  | nil => intro st; simp
  | cons va vas ih =>
    intro st
    simp only [List.foldl_cons, List.map_cons, List.sum_cons, ih,
      insertVA_map_sum f g hadd hnew st va]
    ring

theorem strategies_map_sum (f : Strategy → Rat) (g : VirtualAccount → Rat)
    (hadd : ∀ s va, f (addToStrategy s va) = f s + g va)
    (hnew : ∀ va : VirtualAccount, f (newStrategy (stripStrategy va.name) va) = 0)
    (vas : List VirtualAccount) :
    ((strategies vas).map f).sum = (vas.map g).sum := by
  have hperm : ((strategies vas).map f).Perm ((strategyFold vas).map f) :=
    (List.mergeSort_perm (strategyFold vas) _).map f
  rw [hperm.sum_eq, strategyFold, strategyFold_map_sum f g hadd hnew vas []]
  simp

theorem strategies_sorted_desc (vas : List VirtualAccount) :
    (strategies vas).Pairwise (fun a b => b.total_value ≤ a.total_value) := by
  have h := @List.sorted_mergeSort Strategy
    (fun a b : Strategy => decide (b.total_value ≤ a.total_value))
    (fun a b c hab hbc => by
      simp only [decide_eq_true_eq] at hab hbc ⊢
      exact le_trans hbc hab)
    (fun a b => by
      simp only [Bool.or_eq_true, decide_eq_true_eq]
      exact le_total b.total_value a.total_value)
    (strategyFold vas)
  exact h.imp (fun hab => by simpa using hab)

/-! The claims. -/

/-- C3: aggregating an empty account set yields a zero-valued state —
`summary.total_value = 0`, empty history, empty holdings, empty accounts —
for every retention window and price mapping; `aggregate` is a total
function, so the call never raises. -/
theorem claim_C3_empty_input :
    ∀ (w : Nat) (prices : List (String × Rat)),
      (aggregate w [] prices).summary.total_value = 0 ∧
      (aggregate w [] prices).history = [] ∧
      (aggregate w [] prices).holdings = [] ∧
      (aggregate w [] prices).accounts = [] := by
  intro w prices
  refine ⟨?_, ?_, rfl, rfl⟩
  · simp [aggregate, mkSummary, latestValue, fullHistory, allDays]
  · simp [aggregate, fullHistory, allDays]

/-- C5: an account whose snapshots all fall on the same calendar day `d`
(any number N ≥ 1 of them) produces exactly one aggregated history point,
and that point is for day `d`, for every window `w ≥ 1`. -/
theorem claim_C5_day_grouping (w : Nat) (prices : List (String × Rat))
    (a : Account) (d : Nat) (hw : 1 ≤ w) (hne : a.performance_log ≠ [])
    (hday : ∀ s ∈ a.performance_log, s.day = d) :
    (aggregate w [a] prices).history.map (fun p => p.date) = [d] := by
  have hdays : allDays [a] = [d] := by
    rw [allDays]
    have hflat : ([a].flatMap fun b => b.performance_log.map fun s => s.day)
        = a.performance_log.map fun s => s.day := by
      simp [List.flatMap]
    rw [hflat]
    apply foldr_insertDay_const
    · intro hnil
      exact hne (List.map_eq_nil_iff.mp hnil)
    · intro x hx
      rcases List.mem_map.mp hx with ⟨s, hs, rfl⟩
      exact hday s hs
  have hfull : fullHistory [a] = [⟨d, dayTotal [a] d⟩] := by
    rw [fullHistory, hdays, List.map_cons, List.map_nil]
  have hdrop : (1 : Nat) - w = 0 := by omega
  simp [aggregate, hfull, hdrop]

/-- C5 witness: one account with two snapshots on day 0 yields a single
history point for day 0. -/
theorem claim_C5_witness :
    1 ≤ 1 ∧ (⟨"A", 0, [], [⟨0, 100⟩, ⟨0, 105⟩]⟩ : Account).performance_log ≠ [] ∧
    (∀ s ∈ (⟨"A", 0, [], [⟨0, 100⟩, ⟨0, 105⟩]⟩ : Account).performance_log, s.day = 0) ∧
    (aggregate 1 [⟨"A", 0, [], [⟨0, 100⟩, ⟨0, 105⟩]⟩] []).history.map (fun p => p.date)
      = [0] :=
  ⟨le_refl 1, by simp, by simp,
    claim_C5_day_grouping 1 [] ⟨"A", 0, [], [⟨0, 100⟩, ⟨0, 105⟩]⟩ 0 (le_refl 1)
      (by simp) (by simp)⟩

/-- C6: an emitted holding whose instrument code has no entry in the price
mapping has its current price equal to its average cost and zero pnl;
`aggregate` (hence the valuation) is total, so missing price data never
makes it fail. -/
theorem claim_C6_price_fallback (w : Nat) (prices : List (String × Rat))
    (accounts : List Account) (h : OutHolding)
    (hmem : h ∈ (aggregate w accounts prices).holdings)
    (hnone : lookupPrice prices h.name = none) :
    h.current_price = h.avg_price ∧ h.pnl = 0 := by
  simp only [aggregate, outHoldings, List.mem_flatMap, List.mem_map,
    List.mem_filter] at hmem
  rcases hmem with ⟨a, _, p, _, rfl⟩
  simp only [mkHolding] at hnone ⊢
  rw [hnone]
  simp

/-- C6 witness: a single position with no price entry is valued at average
cost with zero pnl. -/
theorem claim_C6_witness :
    (⟨"X", 10, 1000, 1000, 10000, 0, 0, "A"⟩ : OutHolding)
        ∈ (aggregate 60 [⟨"A", 0, [⟨"X", 10, 1000⟩], []⟩] []).holdings ∧
    lookupPrice [] (⟨"X", 10, 1000, 1000, 10000, 0, 0, "A"⟩ : OutHolding).name = none ∧
    ((⟨"X", 10, 1000, 1000, 10000, 0, 0, "A"⟩ : OutHolding).current_price
        = (⟨"X", 10, 1000, 1000, 10000, 0, 0, "A"⟩ : OutHolding).avg_price ∧
      (⟨"X", 10, 1000, 1000, 10000, 0, 0, "A"⟩ : OutHolding).pnl = 0) :=
  ⟨by norm_num [aggregate, outHoldings, mkHolding, lookupPrice, rate, List.flatMap],
    by simp [lookupPrice],
    claim_C6_price_fallback 60 [] [⟨"A", 0, [⟨"X", 10, 1000⟩], []⟩] _
      (by norm_num [aggregate, outHoldings, mkHolding, lookupPrice, rate, List.flatMap])
      (by simp [lookupPrice])⟩

/-- C4: when account A has a snapshot on day `d` and account B only has
snapshots on earlier days, the aggregated value of day `d` is A's day-`d`
value plus B's last known (carried-forward) value, not plus zero; in the
spec's scenario — A: (day 1, 100), (day 2, 110); B: (day 1, 50) — the
history is exactly [(1, 150), (2, 160)]. -/
theorem claim_C4_carry_forward (A B : Account) (d : Nat)
    (hA : ∃ s ∈ A.performance_log, s.day = d)
    (hBlt : ∀ s ∈ B.performance_log, s.day < d)
    (_hBne : B.performance_log ≠ []) :
    histValueAt [A, B] d = some ((dayValue A d).getD 0 + lastValue B) ∧
    (aggregate 60 [⟨"A", 0, [], [⟨1, 100⟩, ⟨2, 110⟩]⟩, ⟨"B", 0, [], [⟨1, 50⟩]⟩] []).history
      = [⟨1, 150⟩, ⟨2, 160⟩] := by
  constructor
  · have hmem : d ∈ allDays [A, B] := by
      rcases hA with ⟨s, hs, hsd⟩
      apply mem_foldr_insertDay
      exact List.mem_flatMap.mpr ⟨A, by simp, List.mem_map.mpr ⟨s, hs, hsd⟩⟩
    have hfind := find?_map_histPoint (fun x => dayTotal [A, B] x) d (allDays [A, B]) hmem
    rw [histValueAt, fullHistory, hfind, Option.map_some']
    have hBfull : B.performance_log.filter (fun s => s.day ≤ d) = B.performance_log :=
      List.filter_eq_self.mpr fun s hs => decide_eq_true (le_of_lt (hBlt s hs))
    have hBval : (dayValue B d).getD 0 = lastValue B := by
      rw [dayValue, hBfull, lastValue]
    simp only [dayTotal, List.map_cons, List.map_nil, List.sum_cons, List.sum_nil,
      hBval, add_zero]
  · norm_num [aggregate, fullHistory, allDays, dayTotal, dayValue, List.flatMap, insertDay]

/-- C4 witness: the spec scenario instantiates the carry-forward statement —
B's day-1 value 50 is carried to day 2. -/
theorem claim_C4_witness :
    (∃ s ∈ (⟨"A", 0, [], [⟨1, 100⟩, ⟨2, 110⟩]⟩ : Account).performance_log, s.day = 2) ∧
    (∀ s ∈ (⟨"B", 0, [], [⟨1, 50⟩]⟩ : Account).performance_log, s.day < 2) ∧
    histValueAt [⟨"A", 0, [], [⟨1, 100⟩, ⟨2, 110⟩]⟩, ⟨"B", 0, [], [⟨1, 50⟩]⟩] 2
      = some ((dayValue ⟨"A", 0, [], [⟨1, 100⟩, ⟨2, 110⟩]⟩ 2).getD 0
          + lastValue ⟨"B", 0, [], [⟨1, 50⟩]⟩) :=
  ⟨⟨⟨2, 110⟩, by simp, rfl⟩, by simp,
    (claim_C4_carry_forward ⟨"A", 0, [], [⟨1, 100⟩, ⟨2, 110⟩]⟩ ⟨"B", 0, [], [⟨1, 50⟩]⟩ 2
      ⟨⟨2, 110⟩, by simp, rfl⟩ (by simp) (by simp)).1⟩

/-- C7: with more distinct snapshot days than the retention window `w`, the
aggregated history has exactly `w` points; it is the suffix of the full
daily history obtained by dropping the oldest days, its dates are exactly
the `w` most recent days, and they remain in strictly ascending order. -/
theorem claim_C7_truncation (w : Nat) (prices : List (String × Rat))
    (accounts : List Account) (hlt : w < (allDays accounts).length) :
    (aggregate w accounts prices).history.length = w ∧
    (aggregate w accounts prices).history
      = (fullHistory accounts).drop ((allDays accounts).length - w) ∧
    (aggregate w accounts prices).history.map (fun p => p.date)
      = (allDays accounts).drop ((allDays accounts).length - w) ∧
    ((aggregate w accounts prices).history.map (fun p => p.date)).Pairwise (· < ·) := by
  have hlen : (fullHistory accounts).length = (allDays accounts).length :=
    List.length_map _ _
  have h2 : (aggregate w accounts prices).history
      = (fullHistory accounts).drop ((allDays accounts).length - w) := by
    simp only [aggregate, hlen]
  have hmapdate : (fullHistory accounts).map (fun p => p.date) = allDays accounts := by
    rw [fullHistory, List.map_map]
    exact List.map_id'' (fun x => rfl) _
  have h3 : (aggregate w accounts prices).history.map (fun p => p.date)
      = (allDays accounts).drop ((allDays accounts).length - w) := by
    rw [h2, List.map_drop, hmapdate]
  refine ⟨?_, h2, h3, ?_⟩
  · rw [h2, List.length_drop, hlen]
    omega
  · rw [h3]
    exact List.Pairwise.sublist (List.drop_sublist _ _) (pairwise_allDays accounts)

/-- C7 witness: window 1 with two distinct days keeps only the latest day. -/
theorem claim_C7_witness :
    1 < (allDays [⟨"A", 0, [], [⟨0, 10⟩, ⟨1, 20⟩]⟩]).length ∧
    (aggregate 1 [⟨"A", 0, [], [⟨0, 10⟩, ⟨1, 20⟩]⟩] []).history.length = 1 ∧
    (aggregate 1 [⟨"A", 0, [], [⟨0, 10⟩, ⟨1, 20⟩]⟩] []).history.map (fun p => p.date)
      = (allDays [⟨"A", 0, [], [⟨0, 10⟩, ⟨1, 20⟩]⟩]).drop
          ((allDays [⟨"A", 0, [], [⟨0, 10⟩, ⟨1, 20⟩]⟩]).length - 1) :=
  ⟨by norm_num [allDays, List.flatMap, insertDay],
    (claim_C7_truncation 1 [] [⟨"A", 0, [], [⟨0, 10⟩, ⟨1, 20⟩]⟩]
      (by norm_num [allDays, List.flatMap, insertDay])).1,
    (claim_C7_truncation 1 [] [⟨"A", 0, [], [⟨0, 10⟩, ⟨1, 20⟩]⟩]
      (by norm_num [allDays, List.flatMap, insertDay])).2.2.1⟩

/-- C8: `summary.total_pnl` is the latest total value minus the inception
baseline; `summary.daily_pnl` is the latest minus the previous day's value
and 0 with fewer than 2 recorded days; each return rate is its pnl divided
by its baseline via `rate`, which maps a zero baseline to 0; an account with
a single snapshot gets `daily_pnl = 0` and `total_pnl = 0`. -/
theorem claim_C8_summary_pnl (w : Nat) (prices : List (String × Rat))
    (accounts : List Account) (a : Account) (s : Snapshot)
    (hlog : a.performance_log = [s]) :
    (∀ p : Rat, rate p 0 = 0) ∧
    (aggregate w accounts prices).summary.total_pnl
      = latestValue accounts - firstValue accounts ∧
    ((fullHistory accounts).length < 2 →
      (aggregate w accounts prices).summary.daily_pnl = 0) ∧
    (2 ≤ (fullHistory accounts).length →
      (aggregate w accounts prices).summary.daily_pnl
        = latestValue accounts - prevDayValue accounts) ∧
    (aggregate w accounts prices).summary.total_return
      = rate ((aggregate w accounts prices).summary.total_pnl) (firstValue accounts) ∧
    (aggregate w accounts prices).summary.daily_return
      = rate ((aggregate w accounts prices).summary.daily_pnl) (prevDayValue accounts) ∧
    (aggregate w [a] prices).summary.daily_pnl = 0 ∧
    (aggregate w [a] prices).summary.total_pnl = 0 := by
  have hfull : fullHistory [a] = [⟨s.day, dayTotal [a] s.day⟩] := by
    rw [fullHistory]
    rw [show allDays [a] = [s.day] by
      rw [allDays]
      apply foldr_insertDay_const
      · simp [List.flatMap, hlog]
      · intro x hx
        simp [List.flatMap, hlog] at hx
        omega]
    simp
  refine ⟨fun p => by simp [rate], rfl, ?_, ?_, rfl, rfl, ?_, ?_⟩
  · intro hlen
    simp [aggregate, mkSummary, if_pos hlen]
  · intro hlen
    simp [aggregate, mkSummary, if_neg (by omega : ¬ (fullHistory accounts).length < 2)]
  · simp [aggregate, mkSummary, hfull]
  · simp [aggregate, mkSummary, latestValue, firstValue, hfull]

/-- C8 witness: the single-snapshot scenario at a concrete account. -/
theorem claim_C8_witness :
    (⟨"A", 20, [], [⟨0, 100⟩]⟩ : Account).performance_log = [⟨0, 100⟩] ∧
    (aggregate 60 [⟨"A", 20, [], [⟨0, 100⟩]⟩] []).summary.daily_pnl = 0 ∧
    (aggregate 60 [⟨"A", 20, [], [⟨0, 100⟩]⟩] []).summary.total_pnl = 0 :=
  ⟨rfl,
    (claim_C8_summary_pnl 60 [] [] ⟨"A", 20, [], [⟨0, 100⟩]⟩ ⟨0, 100⟩ rfl).2.2.2.2.2.2.1,
    (claim_C8_summary_pnl 60 [] [] ⟨"A", 20, [], [⟨0, 100⟩]⟩ ⟨0, 100⟩ rfl).2.2.2.2.2.2.2⟩

/-- C1 counterexample: for the one-point history (fewer than 2 points)
`calculateRisk` does NOT return a defined volatility — `d3.deviation` of the
empty returns array is `undefined` and the multiplications propagate `NaN`
(modelled `none`); and the Top-3 concentration with `summary.total_value = 0`
is a division by zero, not a defined value. -/
theorem claim_C1_counterexample :
    ([⟨0, 100⟩] : List HistPoint).length < 2 ∧
    (calculateRisk (fun _ => 0) [⟨0, 100⟩]).volatility = none ∧
    (calculateRisk (fun _ => 0) [⟨0, 100⟩]).sharpe = none ∧
    concentration [] 0 = none := by
  refine ⟨by norm_num, ?_, ?_, ?_⟩
  · simp [calculateRisk, d3deviation, riskLoop]
  · simp [calculateRisk, d3deviation, d3mean, riskLoop, jsDivO]
  · simp [concentration, topHoldings, jsDiv]

/-- C1 amended: for a history with fewer than 2 points `calculateRisk`
returns a defined `maxDrawdown` of 0, but `volatility` and `sharpe` are the
invalid value `NaN` (modelled `none`), and the Top-3 concentration is an
invalid value (`NaN` or `Infinity`) whenever `summary.total_value` is 0:
the division-by-zero guard is absent from the dashboard code. -/
theorem claim_C1_short_history (sq : Rat → Rat) (hist : List HistPoint)
    (hshort : hist.length < 2) :
    (calculateRisk sq hist).maxDrawdown = some 0 ∧
    (calculateRisk sq hist).volatility = none ∧
    (calculateRisk sq hist).sharpe = none ∧
    ∀ (holdings : List PHolding), concentration holdings 0 = none := by
  have hconc : ∀ (holdings : List PHolding), concentration holdings 0 = none := by
    intro holdings
    simp [concentration, jsDiv]
  rcases hist with _ | ⟨h0, _ | ⟨h1, t⟩⟩
  · exact ⟨by norm_num [calculateRisk], by simp [calculateRisk, d3deviation],
      by simp [calculateRisk, d3deviation, d3mean, jsDivO], hconc⟩
  · exact ⟨by norm_num [calculateRisk, riskLoop],
      by simp [calculateRisk, d3deviation, riskLoop],
      by simp [calculateRisk, d3deviation, d3mean, riskLoop, jsDivO], hconc⟩
  · simp at hshort
    omega

/-- C1 witness: the empty history instantiates the amended statement. -/
theorem claim_C1_witness :
    ([] : List HistPoint).length < 2 ∧
    ((calculateRisk (fun _ => 1) []).maxDrawdown = some 0 ∧
      (calculateRisk (fun _ => 1) []).volatility = none ∧
      (calculateRisk (fun _ => 1) []).sharpe = none ∧
      ∀ (holdings : List PHolding), concentration holdings 0 = none) :=
  ⟨by norm_num, claim_C1_short_history (fun _ => 1) [] (by norm_num)⟩

/-- C2: `calculateRisk` returns the drawdown and volatility ratios already
multiplied by 100; the holdings table's `pnl_percent` cell is the formatted
number directly followed by a percent sign with no rescaling; and the
summary's return rates are ratios multiplied by 100 (for a nonzero
baseline). -/
theorem claim_C2_percent_scaling (sq : Rat → Rat) (hist : List HistPoint)
    (x p b : Rat) (hb : b ≠ 0) :
    (calculateRisk sq hist).maxDrawdown = some (100 * maxDDRaw hist) ∧
    (calculateRisk sq hist).volatility
      = (annualizedVolRaw sq hist).map (fun v => 100 * v) ∧
    pnlPercentCell x = formatPercent x ++ "%" ∧
    rate p b = p / b * 100 := by
  refine ⟨?_, ?_, rfl, by rw [rate, if_neg hb]⟩
  · rcases hist with _ | ⟨h0, rest⟩
    · rw [show maxDDRaw [] = 0 from rfl]
      norm_num [calculateRisk]
    · rw [show maxDDRaw (h0 :: rest) = (riskLoop rest h0 0 0).2.2 from rfl]
      simp [calculateRisk, mul_comm]
  · rcases hist with _ | ⟨h0, rest⟩
    · simp [calculateRisk, annualizedVolRaw, returnsOf]
      rcases d3deviation sq [] with _ | v
      · rfl
      · simp [mul_comm]
    · simp only [calculateRisk, annualizedVolRaw, returnsOf]
      rcases d3deviation sq (riskLoop rest h0 0 0).1 with _ | v
      · rfl
      · simp [mul_comm]

/-- C2 witness: the scaling statements at a concrete input. -/
theorem claim_C2_witness :
    (2 : Rat) ≠ 0 ∧
    ((calculateRisk (fun _ => 0) []).maxDrawdown = some (100 * maxDDRaw []) ∧
      (calculateRisk (fun _ => 0) []).volatility
        = (annualizedVolRaw (fun _ => 0) []).map (fun v => 100 * v) ∧
      pnlPercentCell (5/2) = formatPercent (5/2) ++ "%" ∧
      rate 1 2 = 1 / 2 * 100) :=
  ⟨by norm_num, claim_C2_percent_scaling (fun _ => 0) [] (5/2) 1 2 (by norm_num)⟩

/-- C10: `calculateRisk` never treats the first history entry as a drawdown
peak: for a positive-valued history of at least two points the returned
`maxDrawdown` is 100 times the maximum over the entries from index 1 of
their drawdown relative to the running maximum of entries 1..i only, and in
particular the strictly decreasing history (100, 90) reports drawdown 0,
not 10. -/
theorem claim_C10_first_entry_no_peak (sq : Rat → Rat)
    (h0 h1 : HistPoint) (rest : List HistPoint)
    (hpos : ∀ p ∈ h0 :: h1 :: rest, 0 < p.value) :
    (calculateRisk sq (h0 :: h1 :: rest)).maxDrawdown
      = some (100 * listMax (ddSeq h1.value ((h1 :: rest).map (fun p => p.value)))) ∧
    (calculateRisk sq [⟨0, 100⟩, ⟨1, 90⟩]).maxDrawdown = some 0 := by
  constructor
  · have hpos1 : 0 < h1.value := hpos h1 (by simp)
    have hloop := riskLoop_maxDD (h1 :: rest) h0 0 0
      (fun q hq => hpos q (List.mem_cons_of_mem h0 hq)) le_rfl
    have hdd0 : ddSeq 0 ((h1 :: rest).map (fun p => p.value))
        = 0 :: ddSeq h1.value (rest.map (fun p => p.value)) := by
      simp only [List.map_cons, ddSeq, max_eq_right hpos1.le, sub_self, zero_div]
    have hdd1 : ddSeq h1.value ((h1 :: rest).map (fun p => p.value))
        = 0 :: ddSeq h1.value (rest.map (fun p => p.value)) := by
      simp only [List.map_cons, ddSeq, max_self, sub_self, zero_div]
    have hmaxDD : (calculateRisk sq (h0 :: h1 :: rest)).maxDrawdown
        = some ((riskLoop (h1 :: rest) h0 0 0).2.2 * 100) := rfl
    rw [hmaxDD, hloop, hdd0, hdd1]
    rcases hrest : ddSeq h1.value (rest.map (fun p => p.value)) with _ | ⟨v, t⟩
    · rw [hrest]
      norm_num [listMax]
    · rw [hrest, List.foldl_cons, max_self,
        foldl_max_eq_listMax (v :: t) 0 (List.cons_ne_nil v t),
        show listMax (0 :: v :: t) = max 0 (listMax (v :: t)) from rfl, mul_comm]
  · norm_num [calculateRisk, riskLoop, jsDiv]

/-- C10 witness: the two-point decreasing history (100, 90) instantiates
the statement with result 0 rather than 10. -/
theorem claim_C10_witness :
    (∀ p ∈ ([⟨0, 100⟩, ⟨1, 90⟩] : List HistPoint), 0 < p.value) ∧
    (calculateRisk (fun _ => 0) [⟨0, 100⟩, ⟨1, 90⟩]).maxDrawdown
      = some (100 * listMax (ddSeq (90 : Rat) [90])) :=
  ⟨by norm_num, (claim_C10_first_entry_no_peak (fun _ => 0) ⟨0, 100⟩ ⟨1, 90⟩ []
    (by norm_num)).1⟩

/-- C9: the per-strategy aggregation is total-preserving — summing any of
the value fields over the strategy buckets equals summing it over all
virtual accounts, missing pnl fields counting as 0 — and the resulting
`strategies` array is sorted by descending `total_value`. -/
theorem claim_C9_strategy_totals (vas : List VirtualAccount) :
    ((strategies vas).map (fun s => s.total_value)).sum
        = (vas.map (fun v => v.total_value)).sum ∧
    ((strategies vas).map (fun s => s.cash)).sum = (vas.map (fun v => v.cash)).sum ∧
    ((strategies vas).map (fun s => s.equity)).sum = (vas.map (fun v => v.equity)).sum ∧
    ((strategies vas).map (fun s => s.unrealized_pnl)).sum
        = (vas.map (fun v => v.unrealized_pnl.getD 0)).sum ∧
    ((strategies vas).map (fun s => s.realized_pnl)).sum
        = (vas.map (fun v => v.realized_pnl.getD 0)).sum ∧
    (strategies vas).Pairwise (fun a b => b.total_value ≤ a.total_value) := by
  refine ⟨?_, ?_, ?_, ?_, ?_, strategies_sorted_desc vas⟩
  · exact strategies_map_sum _ _ (fun s va => rfl) (fun va => rfl) vas
  · exact strategies_map_sum _ _ (fun s va => rfl) (fun va => rfl) vas
  · exact strategies_map_sum _ _ (fun s va => rfl) (fun va => rfl) vas
  · exact strategies_map_sum _ _ (fun s va => rfl) (fun va => rfl) vas
  · exact strategies_map_sum _ _ (fun s va => rfl) (fun va => rfl) vas

end StockDash
